import Mathlib

/-!
# Verification of the `geome` 2D geometry library

Shallow embedding of the TypeScript sources (`src/Line.ts`, `src/Rect.ts`,
`Segment.ts`) over exact real arithmetic.  The linear-algebra substrate
(the `linearly` package: `scalar.mod`, `scalar.approx`, `vec2.*`, `mat2d`)
is modelled with its documented/standard semantics: angles are in degrees,
`vec2.dir` is `(cos, sin)` of the degree angle, `vec2.angle` is the
`atan2`-style argument in degrees (range `(-180, 180]`, embedded via
`Complex.arg`), `scalar.mod` is the floor-based modulo, and
`scalar.approx` is tolerant equality with the global relative epsilon.
-/

noncomputable section

open Real (pi)

/-- A 2D vector, mirroring `linearly`'s `vec2` tuple. -/
abbrev vec2 : Type := ℝ × ℝ

namespace scalar

/-- The global tolerance used by every tolerant comparison (`1e-6`). -/
def EPSILON : ℝ := 1 / 1000000

/-- Embeds `scalar.approx(a, b)`: tolerant equality within a relative epsilon. -/
def approx (a b : ℝ) : Prop := |a - b| ≤ EPSILON * max 1 (max |a| |b|)

/-- Embeds `scalar.mod(a, b)`: floor-based modulo `a - b * floor(a / b)`. -/
def mod (a b : ℝ) : ℝ := a - b * ⌊a / b⌋

end scalar

namespace vec2

/-- Embeds `vec2.add` -/
def add (a b : vec2) : vec2 := (a.1 + b.1, a.2 + b.2)

/-- Embeds `vec2.sub` -/
def sub (a b : vec2) : vec2 := (a.1 - b.1, a.2 - b.2)

/-- Embeds `vec2.scale(v, k)`: scalar multiple. -/
def scale (v : vec2) (k : ℝ) : vec2 := (v.1 * k, v.2 * k)

/-- Embeds `vec2.mul`: component-wise product. -/
def mul (a b : vec2) : vec2 := (a.1 * b.1, a.2 * b.2)

/-- Embeds `vec2.dot` -/
def dot (a b : vec2) : ℝ := a.1 * b.1 + a.2 * b.2

/-- Euclidean length of a vector. -/
def len (v : vec2) : ℝ := Real.sqrt (v.1 ^ 2 + v.2 ^ 2)

/-- Embeds `vec2.dist` -/
def dist (a b : vec2) : ℝ := len (sub a b)

/-- Embeds `vec2.dir(deg)`: unit vector at the given angle in degrees. -/
def dir (deg : ℝ) : vec2 := (Real.cos (deg * pi / 180), Real.sin (deg * pi / 180))

/-- The complex number with the vector's components. -/
def toC (v : vec2) : ℂ := ⟨v.1, v.2⟩

/-- Embeds `vec2.angle(v)`: the argument of `v` in degrees, in `(-180, 180]`. -/
def angle (v : vec2) : ℝ := Complex.arg (toC v) * 180 / pi

end vec2

/-- Embeds `mat2d`: 2D affine matrix `[a, b, c, d, tx, ty]` (column-major 2x2 part
plus translation), acting as `x' = a x + c y + tx`, `y' = b x + d y + ty`. -/
structure mat2d where
  a : ℝ
  b : ℝ
  c : ℝ
  d : ℝ
  tx : ℝ
  ty : ℝ

namespace mat2d

/-- Determinant of the linear part. -/
def det (m : mat2d) : ℝ := m.a * m.d - m.b * m.c

/-- Embeds `mat2d.invert` (gl-matrix formula). -/
def invert (m : mat2d) : mat2d :=
  ⟨m.d / det m, -m.b / det m, -m.c / det m, m.a / det m,
    (m.c * m.ty - m.d * m.tx) / det m, (m.b * m.tx - m.a * m.ty) / det m⟩

end mat2d

/-- Embeds `vec2.transformMat2d(v, m)` -/
def vec2.transformMat2d (v : vec2) (m : mat2d) : vec2 :=
  (m.a * v.1 + m.c * v.2 + m.tx, m.b * v.1 + m.d * v.2 + m.ty)

/-- A line given by the degree angle `theta` of its normal vector and the
signed distance `offset` from the origin (`src/Line.ts`). -/
structure Line where
  theta : ℝ
  offset : ℝ

namespace Line

/-- Embeds `Line.of(theta, offset)` -/
def of (theta offset : ℝ) : Line := ⟨scalar.mod theta 360, offset⟩

/-- Embeds `Line.fromPoints(p1, p2)` -/
def fromPoints (p1 p2 : vec2) : Line :=
  let delta := vec2.sub p2 p1
  let theta := scalar.mod (vec2.angle delta + 90) 360
  let normal := vec2.dir theta
  ⟨theta, vec2.dot p1 normal⟩

/-- Embeds `Line.fromPointDirection(p, deg)` -/
def fromPointDirection (p : vec2) (deg : ℝ) : Line :=
  let theta := scalar.mod (deg + 90) 360
  let normal := vec2.dir theta
  ⟨theta, vec2.dot p normal⟩

/-- Embeds `Line.closest(l, p)` -/
def closest (l : Line) (p : vec2) : vec2 :=
  let normal := vec2.dir l.theta
  let t := vec2.dot p normal - l.offset
  vec2.sub p (vec2.scale normal t)

/-- Embeds `Line.distance(l, p)` -/
def distance (l : Line) (p : vec2) : ℝ :=
  let normal := vec2.dir l.theta
  |vec2.dot p normal - l.offset|

open Classical in
/-- Embeds `Line.intersection(l1, l2)`: Cramer's rule, `null` when the determinant
is tolerantly zero. -/
def intersection (l1 l2 : Line) : Option vec2 :=
  let normal1 := vec2.dir l1.theta
  let normal2 := vec2.dir l2.theta
  let a1 := normal1.1
  let b1 := normal1.2
  let c1 := l1.offset
  let a2 := normal2.1
  let b2 := normal2.2
  let c2 := l2.offset
  let det := a1 * b2 - a2 * b1
  if scalar.approx det 0 then none
  else some ((c1 * b2 - c2 * b1) / det, (a1 * c2 - a2 * c1) / det)

/-- The Cramer determinant `a1*b2 - a2*b1` of the two unit normal
vectors, as used by `Line.intersection`. -/
def normalDet (l1 l2 : Line) : ℝ :=
  (vec2.dir l1.theta).1 * (vec2.dir l2.theta).2 -
    (vec2.dir l2.theta).1 * (vec2.dir l1.theta).2

/-- Embeds `Line.approx(l1, l2)`: direction-sensitive tolerant equality. -/
def approx (l1 l2 : Line) : Prop :=
  scalar.approx l1.theta l2.theta ∧ scalar.approx l1.offset l2.offset

/-- Embeds `Line.same(l1, l2)`: tolerant equality up to direction reversal. -/
def same (l1 l2 : Line) : Prop :=
  approx l1 l2 ∨
    approx ⟨scalar.mod (l1.theta + 180) 360, -l1.offset⟩ l2

/-- Embeds `Line.isParallel(l1, l2)` -/
def isParallel (l1 l2 : Line) : Prop :=
  scalar.approx (scalar.mod l1.theta 180) (scalar.mod l2.theta 180)

/-- Embeds `Line.invert(line)` -/
def invert (line : Line) : Line :=
  ⟨scalar.mod (line.theta + 180) 360, -line.offset⟩

/-- Embeds `Line.reflectionMatrix(line)`: Householder reflection `I - 2 n nᵀ`
with translation `2 c n`. -/
def reflectionMatrix (line : Line) : mat2d :=
  let n := vec2.dir line.theta
  let a := n.1
  let b := n.2
  let c := line.offset
  ⟨1 - 2 * a * a, -2 * a * b, -2 * a * b, 1 - 2 * b * b, 2 * c * a, 2 * c * b⟩

/-- Embeds `Line.transform(line, matrix)`: transform two witness points, then
reconstruct through `fromPoints`. -/
def transform (line : Line) (matrix : mat2d) : Line :=
  let normal := vec2.dir line.theta
  let p1 := vec2.scale normal line.offset
  let p2 := vec2.add p1 (vec2.dir (line.theta - 90))
  let transformedP1 := vec2.transformMat2d p1 matrix
  let transformedP2 := vec2.transformMat2d p2 matrix
  fromPoints transformedP1 transformedP2

end Line

/-- A segment as an ordered pair of points (`Segment.ts`). -/
abbrev Segment : Type := vec2 × vec2

namespace Segment

/-- Embeds `Segment.length(segment)` -/
def length (segment : Segment) : ℝ := vec2.dist segment.1 segment.2

/-- Embeds `Segment.midpoint(segment)` — embedded exactly as written in the
source, which returns `vec2.add(segment[0], segment[1])`. -/
def midpoint (segment : Segment) : vec2 := vec2.add segment.1 segment.2

open Classical in
/-- Embeds `Segment.closestPoint(segment, point)` — embedded exactly as written
in the source (the last branch scales the unnormalized chord by `t`). -/
def closestPoint (segment : Segment) (point : vec2) : vec2 :=
  let a := segment.1
  let b := segment.2
  let c := point
  let len := vec2.dist a b
  if scalar.approx len 0 then a
  else
    let t := vec2.dot (vec2.sub c a) (vec2.sub b a) / len
    if t < 0 then a
    else if t > len then b
    else vec2.add a (vec2.scale (vec2.sub b a) t)

/-- Embeds `Segment.distance(segment, point)` -/
def distance (segment : Segment) (point : vec2) : ℝ :=
  vec2.dist point (closestPoint segment point)

open Classical in
/-- Embeds `Segment.intersection(segment1, segment2)` -/
def intersection (segment1 segment2 : Segment) : Option vec2 :=
  let ab := Line.fromPoints segment1.1 segment1.2
  let cd := Line.fromPoints segment2.1 segment2.2
  match Line.intersection ab cd with
  | none => none
  | some p =>
    if vec2.dist p segment1.1 ≤ vec2.dist p segment1.2 ∧
        vec2.dist p segment2.1 ≤ vec2.dist p segment2.2 then some p
    else none

end Segment

/-- An axis-aligned rectangle `[min, max]` (`src/Rect.ts`). -/
abbrev Rect : Type := vec2 × vec2

namespace Rect

/-- Embeds `Rect.fromPoints(...points)` for a nonempty list of points: the source
folds `Math.min`/`Math.max` starting from `±Infinity`, which over a
nonempty list equals folding from the first point. -/
def fromPoints (p : vec2) (ps : List vec2) : Rect :=
  ps.foldl
    (fun acc q =>
      ((Min.min acc.1.1 q.1, Min.min acc.1.2 q.2),
        (Max.max acc.2.1 q.1, Max.max acc.2.2 q.2)))
    ((p.1, p.2), (p.1, p.2))

/-- Embeds `Rect.bySize(min, size)` -/
def bySize (m size : vec2) : Rect := fromPoints m [vec2.add m size]

/-- Embeds `Rect.fromCenter(center, size)` — embedded exactly as written in the
source (`fromPoints(center - size/2, size * 2)`). -/
def fromCenter (center size : vec2) : Rect :=
  fromPoints (vec2.sub center (vec2.scale size 0.5)) [vec2.scale size 2]

/-- Embeds `Rect.scale(bbox, scale)` with a vector factor; a scalar factor `k`
is the source's `[k, k]` case. -/
def scale (bbox : Rect) (s : vec2) : Rect :=
  (vec2.mul bbox.1 s, vec2.mul bbox.2 s)

/-- Embeds `Rect.containsPoint(bbox, point)` -/
def containsPoint (bbox : Rect) (point : vec2) : Prop :=
  point.1 ≥ bbox.1.1 ∧ point.1 ≤ bbox.2.1 ∧
    point.2 ≥ bbox.1.2 ∧ point.2 ≤ bbox.2.2

/-- Embeds `Rect.intersect(...rects)` for a nonempty list of rects: the source
folds `max` over mins and `min` over maxes starting from the infinite
rect, which over a nonempty list equals folding from the first rect. -/
def intersect (r : Rect) (rs : List Rect) : Rect :=
  rs.foldl
    (fun acc q =>
      ((Max.max acc.1.1 q.1.1, Max.max acc.1.2 q.1.2),
        (Min.min acc.2.1 q.2.1, Min.min acc.2.2 q.2.2)))
    r

/-- The representation invariant of `Rect`: `min.x <= max.x` and
`min.y <= max.y`. -/
def inv (r : Rect) : Prop := r.1.1 ≤ r.2.1 ∧ r.1.2 ≤ r.2.2

end Rect

/-! ## Basic facts about the substrate -/

theorem scalar.epsilon_pos : (0 : ℝ) < scalar.EPSILON := by norm_num [scalar.EPSILON]

theorem scalar.mod_nonneg (x : ℝ) : 0 ≤ scalar.mod x 360 := by
  unfold scalar.mod
  have h := Int.floor_le (x / 360)
  nlinarith

theorem scalar.mod_lt (x : ℝ) : scalar.mod x 360 < 360 := by
  unfold scalar.mod
  have h := Int.lt_floor_add_one (x / 360)
  nlinarith

theorem scalar.mod_add_int (x : ℝ) (k : ℤ) :
    scalar.mod (x + 360 * k) 360 = scalar.mod x 360 := by
  unfold scalar.mod
  have h1 : (x + 360 * k) / 360 = x / 360 + k := by ring
  rw [h1, Int.floor_add_int]
  push_cast
  ring

theorem scalar.mod_eq_self {x : ℝ} (h0 : 0 ≤ x) (h1 : x < 360) :
    scalar.mod x 360 = x := by
  unfold scalar.mod
  have h2 : ⌊x / 360⌋ = 0 := by
    rw [Int.floor_eq_zero_iff]
    refine Set.mem_Ico.mpr ⟨div_nonneg h0 (by norm_num), ?_⟩
    rw [div_lt_one (by norm_num)]
    exact h1
  rw [h2]
  simp

theorem scalar.approx_refl (a : ℝ) : scalar.approx a a := by
  unfold scalar.approx
  rw [sub_self, abs_zero]
  have h1 : (0 : ℝ) < scalar.EPSILON := scalar.epsilon_pos
  have h2 : (1 : ℝ) ≤ max 1 (max |a| |a|) := le_max_left _ _
  nlinarith

theorem scalar.approx_zero_zero : scalar.approx 0 0 := scalar.approx_refl 0

theorem scalar.not_approx {a b : ℝ} (ha : |a| ≤ 360) (hb : |b| ≤ 360)
    (h : 180 ≤ |a - b|) : ¬ scalar.approx a b := by
  unfold scalar.approx scalar.EPSILON
  intro hc
  have h1 : max 1 (max |a| |b|) ≤ 360 := max_le (by norm_num) (max_le ha hb)
  nlinarith

theorem vec2.sq_sum_pos {v : vec2} (h : v ≠ (0, 0)) : 0 < v.1 ^ 2 + v.2 ^ 2 := by
  have h' : v.1 ≠ 0 ∨ v.2 ≠ 0 := by
    by_contra hc
    push_neg at hc
    exact h (Prod.ext_iff.mpr ⟨hc.1, hc.2⟩)
  rcases h' with h' | h'
  · have h1 : 0 < |v.1| := abs_pos.mpr h'
    nlinarith [sq_abs v.1, sq_nonneg v.2]
  · have h1 : 0 < |v.2| := abs_pos.mpr h'
    nlinarith [sq_abs v.2, sq_nonneg v.1]

theorem vec2.len_pos {v : vec2} (h : v ≠ (0, 0)) : 0 < vec2.len v :=
  Real.sqrt_pos.mpr (vec2.sq_sum_pos h)

theorem vec2.len_sq {v : vec2} : vec2.len v ^ 2 = v.1 ^ 2 + v.2 ^ 2 :=
  Real.sq_sqrt (by positivity)

/-! ## Facts about `vec2.dir` and `vec2.angle` -/

theorem vec2.dir_sq (θ : ℝ) : (vec2.dir θ).1 ^ 2 + (vec2.dir θ).2 ^ 2 = 1 := by
  unfold vec2.dir
  exact Real.cos_sq_add_sin_sq _

theorem vec2.dir_smod (θ : ℝ) : vec2.dir (scalar.mod θ 360) = vec2.dir θ := by
  unfold vec2.dir scalar.mod
  have h1 : (θ - 360 * ⌊θ / 360⌋) * pi / 180 =
      θ * pi / 180 + (-⌊θ / 360⌋ : ℤ) * (2 * pi) := by push_cast; ring
  rw [h1, Real.cos_add_int_mul_two_pi, Real.sin_add_int_mul_two_pi]

theorem vec2.dir_add_int (θ : ℝ) (k : ℤ) : vec2.dir (θ + 360 * k) = vec2.dir θ := by
  unfold vec2.dir
  have h1 : (θ + 360 * k) * pi / 180 = θ * pi / 180 + (k : ℤ) * (2 * pi) := by
    ring
  rw [h1, Real.cos_add_int_mul_two_pi, Real.sin_add_int_mul_two_pi]

theorem vec2.dir_add_90 (θ : ℝ) :
    vec2.dir (θ + 90) = (-(vec2.dir θ).2, (vec2.dir θ).1) := by
  unfold vec2.dir
  have h1 : (θ + 90) * pi / 180 = θ * pi / 180 + pi / 2 := by ring
  rw [h1, Real.cos_add_pi_div_two, Real.sin_add_pi_div_two]

theorem vec2.dir_sub_90 (θ : ℝ) :
    vec2.dir (θ - 90) = ((vec2.dir θ).2, -(vec2.dir θ).1) := by
  unfold vec2.dir
  have h1 : (θ - 90) * pi / 180 = θ * pi / 180 - pi / 2 := by ring
  rw [h1, Real.cos_sub_pi_div_two, Real.sin_sub_pi_div_two]

theorem vec2.dir_add_180 (θ : ℝ) :
    vec2.dir (θ + 180) = (-(vec2.dir θ).1, -(vec2.dir θ).2) := by
  unfold vec2.dir
  have h1 : (θ + 180) * pi / 180 = θ * pi / 180 + pi := by ring
  rw [h1, Real.cos_add_pi, Real.sin_add_pi]

theorem vec2.toC_ne_zero {v : vec2} (h : v ≠ (0, 0)) : vec2.toC v ≠ 0 := by
  intro hc
  apply h
  have h1 := congrArg Complex.re hc
  have h2 := congrArg Complex.im hc
  simp only [vec2.toC, Complex.zero_re, Complex.zero_im] at h1 h2
  exact Prod.ext_iff.mpr ⟨h1, h2⟩

theorem vec2.abs_toC (v : vec2) : Complex.abs (vec2.toC v) = vec2.len v := by
  unfold vec2.toC vec2.len
  rw [Complex.abs_apply, Complex.normSq_mk]
  congr 1
  ring

theorem vec2.dir_angle {v : vec2} (h : v ≠ (0, 0)) :
    vec2.dir (vec2.angle v) = (v.1 / vec2.len v, v.2 / vec2.len v) := by
  unfold vec2.dir vec2.angle
  have hpi := Real.pi_ne_zero
  have h1 : Complex.arg (vec2.toC v) * 180 / pi * pi / 180 =
      Complex.arg (vec2.toC v) := by field_simp
  rw [h1, Complex.cos_arg (vec2.toC_ne_zero h), Complex.sin_arg, vec2.abs_toC]
  rfl

theorem vec2.dir_inj {x y : ℝ} (h : vec2.dir x = vec2.dir y) :
    ∃ k : ℤ, x = y + 360 * k := by
  unfold vec2.dir at h
  have hc : Real.cos (x * pi / 180) = Real.cos (y * pi / 180) :=
    congrArg Prod.fst h
  have hs : Real.sin (x * pi / 180) = Real.sin (y * pi / 180) :=
    congrArg Prod.snd h
  have he : Complex.exp ((x * pi / 180 : ℝ) * Complex.I) =
      Complex.exp ((y * pi / 180 : ℝ) * Complex.I) := by
    rw [Complex.exp_mul_I, Complex.exp_mul_I, ← Complex.ofReal_cos,
      ← Complex.ofReal_sin, ← Complex.ofReal_cos, ← Complex.ofReal_sin, hc, hs]
  rw [Complex.exp_eq_exp_iff_exists_int] at he
  obtain ⟨n, hn⟩ := he
  refine ⟨n, ?_⟩
  have him := congrArg Complex.im hn
  simp only [Complex.mul_im, Complex.ofReal_re, Complex.ofReal_im,
    Complex.I_im, Complex.I_re, Complex.add_im, Complex.mul_re,
    Complex.intCast_re, Complex.intCast_im, Complex.re_ofNat,
    Complex.im_ofNat] at him
  have hpi := Real.pi_ne_zero
  have h2 : x * pi = (y + 360 * (n : ℝ)) * pi := by linear_combination 180 * him
  have h3 := mul_right_cancel₀ hpi h2
  exact_mod_cast h3

theorem vec2.perp_decomp {n v : vec2} (hn : n ≠ (0, 0)) (h : vec2.dot v n = 0) :
    ∃ t : ℝ, v = (t * -n.2, t * n.1) := by
  refine ⟨(v.2 * n.1 - v.1 * n.2) / (n.1 ^ 2 + n.2 ^ 2), ?_⟩
  have hd : n.1 ^ 2 + n.2 ^ 2 ≠ 0 := ne_of_gt (vec2.sq_sum_pos hn)
  unfold vec2.dot at h
  refine Prod.ext_iff.mpr ⟨?_, ?_⟩
  · field_simp
    linear_combination n.1 * h
  · field_simp
    linear_combination n.2 * h

theorem vec2.dir_ne (θ : ℝ) : vec2.dir θ ≠ (0, 0) := by
  intro hc
  have h1 := vec2.dir_sq θ
  rw [hc] at h1
  norm_num at h1

theorem vec2.sub_ne {a b : vec2} (h : a ≠ b) : vec2.sub b a ≠ (0, 0) := by
  intro hc
  apply h
  unfold vec2.sub at hc
  have h1 := congrArg Prod.fst hc
  have h2 := congrArg Prod.snd hc
  simp only at h1 h2
  refine Prod.ext_iff.mpr ⟨?_, ?_⟩
  · have : b.1 - a.1 = 0 := h1
    linarith
  · have : b.2 - a.2 = 0 := h2
    linarith

/-! ## The `fromPoints` characterization -/

theorem Line.fromPoints_def (p1 p2 : vec2) :
    Line.fromPoints p1 p2 =
      ⟨scalar.mod (vec2.angle (vec2.sub p2 p1) + 90) 360,
        vec2.dot p1
          (vec2.dir (scalar.mod (vec2.angle (vec2.sub p2 p1) + 90) 360))⟩ := rfl

/-- The unit normal of `fromPoints a b` is the `+90°` rotation of the unit
chord direction. -/
theorem Line.dir_fromPoints_theta {a b : vec2} (h : a ≠ b) :
    vec2.dir (Line.fromPoints a b).theta =
      (-((vec2.sub b a).2 / vec2.len (vec2.sub b a)),
        (vec2.sub b a).1 / vec2.len (vec2.sub b a)) := by
  rw [Line.fromPoints_def]
  show vec2.dir (scalar.mod (vec2.angle (vec2.sub b a) + 90) 360) = _
  rw [vec2.dir_smod, vec2.dir_add_90, vec2.dir_angle (vec2.sub_ne h)]

/-- The chord is perpendicular to the constructed normal. -/
theorem Line.fromPoints_delta_perp {a b : vec2} (h : a ≠ b) :
    vec2.dot (vec2.sub b a) (vec2.dir (Line.fromPoints a b).theta) = 0 := by
  rw [Line.dir_fromPoints_theta h]
  unfold vec2.dot
  ring

/-- The first endpoint satisfies the constructed line equation. -/
theorem Line.fromPoints_on1 (a b : vec2) :
    vec2.dot a (vec2.dir (Line.fromPoints a b).theta) =
      (Line.fromPoints a b).offset := rfl

/-- The second endpoint satisfies the constructed line equation. -/
theorem Line.fromPoints_on2 {a b : vec2} (h : a ≠ b) :
    vec2.dot b (vec2.dir (Line.fromPoints a b).theta) =
      (Line.fromPoints a b).offset := by
  have h1 := Line.fromPoints_delta_perp h
  have h2 := Line.fromPoints_on1 a b
  unfold vec2.dot vec2.sub at h1
  dsimp only at h1
  unfold vec2.dot at h2 ⊢
  linarith

/-- Any point of the form `a + t (b - a)` satisfies the constructed line
equation. -/
theorem Line.fromPoints_param {a b : vec2} (h : a ≠ b) (t : ℝ) :
    vec2.dot (vec2.add a (vec2.scale (vec2.sub b a) t))
      (vec2.dir (Line.fromPoints a b).theta) = (Line.fromPoints a b).offset := by
  have h1 := Line.fromPoints_delta_perp h
  have h2 := Line.fromPoints_on1 a b
  unfold vec2.dot vec2.sub at h1
  dsimp only at h1
  unfold vec2.dot at h2
  unfold vec2.dot vec2.add vec2.scale vec2.sub
  dsimp only
  linear_combination h2 + t * h1

/-- Conversely, any point satisfying the constructed line equation is of
the form `a + t (b - a)`. -/
theorem Line.mem_fromPoints {a b p : vec2} (hab : a ≠ b)
    (hp : vec2.dot p (vec2.dir (Line.fromPoints a b).theta) =
      (Line.fromPoints a b).offset) :
    ∃ t : ℝ, p = vec2.add a (vec2.scale (vec2.sub b a) t) := by
  set n := vec2.dir (Line.fromPoints a b).theta with hn
  have hperp1 : vec2.dot (vec2.sub p a) n = 0 := by
    have h2 := Line.fromPoints_on1 a b
    rw [← hn] at h2
    unfold vec2.dot at hp h2
    unfold vec2.dot vec2.sub
    dsimp only
    linarith
  have hperp2 : vec2.dot (vec2.sub b a) n = 0 := Line.fromPoints_delta_perp hab
  have hnne : n ≠ (0, 0) := vec2.dir_ne _
  obtain ⟨t1, ht1⟩ := vec2.perp_decomp hnne hperp1
  obtain ⟨t2, ht2⟩ := vec2.perp_decomp hnne hperp2
  have ht2ne : t2 ≠ 0 := by
    intro hc
    rw [hc] at ht2
    simp only [zero_mul] at ht2
    exact vec2.sub_ne hab ht2
  refine ⟨t1 / t2, ?_⟩
  have e1 : p.1 - a.1 = t1 * -n.2 := congrArg Prod.fst ht1
  have e2 : p.2 - a.2 = t1 * n.1 := congrArg Prod.snd ht1
  have e3 : b.1 - a.1 = t2 * -n.2 := congrArg Prod.fst ht2
  have e4 : b.2 - a.2 = t2 * n.1 := congrArg Prod.snd ht2
  unfold vec2.add vec2.scale vec2.sub
  refine Prod.ext_iff.mpr ⟨?_, ?_⟩
  · show p.1 = a.1 + (b.1 - a.1) * (t1 / t2)
    field_simp
    linear_combination t2 * e1 - t1 * e3
  · show p.2 = a.2 + (b.2 - a.2) * (t1 / t2)
    field_simp
    linear_combination t2 * e2 - t1 * e4

/-- Applying `fromPoints` to two points at offset `s > 0` along the tangent
direction of `θ` reproduces the line `⟨θ, dot a (dir θ)⟩` exactly. -/
theorem Line.fromPoints_eq_pos {a b : vec2} {θ s : ℝ} (hθ0 : 0 ≤ θ)
    (hθ1 : θ < 360) (hs : 0 < s)
    (hab : vec2.sub b a = vec2.scale (vec2.dir (θ - 90)) s) :
    Line.fromPoints a b = ⟨θ, vec2.dot a (vec2.dir θ)⟩ := by
  set delta := vec2.sub b a with hdelta
  have hcomp : delta = ((vec2.dir θ).2 * s, -(vec2.dir θ).1 * s) := by
    rw [hab, vec2.dir_sub_90]
    unfold vec2.scale
    norm_num
  have hlen : vec2.len delta = s := by
    rw [hcomp]
    unfold vec2.len
    have h1 : ((vec2.dir θ).2 * s) ^ 2 + (-(vec2.dir θ).1 * s) ^ 2 = s ^ 2 := by
      have h2 := vec2.dir_sq θ
      nlinarith
    rw [h1, Real.sqrt_sq hs.le]
  have hne : delta ≠ (0, 0) := by
    intro hc
    rw [hc] at hlen
    unfold vec2.len at hlen
    rw [show ((0:ℝ),(0:ℝ)).1 ^ 2 + ((0:ℝ),(0:ℝ)).2 ^ 2 = 0 by norm_num] at hlen
    rw [Real.sqrt_zero] at hlen
    exact absurd hlen.symm (ne_of_gt hs)
  have hdir : vec2.dir (vec2.angle delta) = vec2.dir (θ - 90) := by
    rw [vec2.dir_angle hne, hcomp, vec2.dir_sub_90]
    have hsne : s ≠ 0 := ne_of_gt hs
    have hl : vec2.len delta = s := hlen
    rw [hcomp] at hl
    rw [hl]
    field_simp
  obtain ⟨k, hk⟩ := vec2.dir_inj hdir
  have hθn : scalar.mod (vec2.angle delta + 90) 360 = θ := by
    rw [hk, show θ - 90 + 360 * (k:ℝ) + 90 = θ + 360 * (k:ℝ) by ring,
      scalar.mod_add_int, scalar.mod_eq_self hθ0 hθ1]
  rw [Line.fromPoints_def, ← hdelta, hθn]

/-- Applying `fromPoints` to two points at offset `s < 0` along the tangent
direction of `θ` reproduces the inverted line exactly. -/
theorem Line.fromPoints_eq_neg {a b : vec2} {θ s : ℝ} (hθ0 : 0 ≤ θ)
    (hθ1 : θ < 360) (hs : s < 0)
    (hab : vec2.sub b a = vec2.scale (vec2.dir (θ - 90)) s) :
    Line.fromPoints a b =
      ⟨scalar.mod (θ + 180) 360, -(vec2.dot a (vec2.dir θ))⟩ := by
  set delta := vec2.sub b a with hdelta
  have hcomp : delta = ((vec2.dir θ).2 * s, -(vec2.dir θ).1 * s) := by
    rw [hab, vec2.dir_sub_90]
    unfold vec2.scale
    norm_num
  have hlen : vec2.len delta = -s := by
    rw [hcomp]
    unfold vec2.len
    have h1 : ((vec2.dir θ).2 * s) ^ 2 + (-(vec2.dir θ).1 * s) ^ 2 = (-s) ^ 2 := by
      have h2 := vec2.dir_sq θ
      nlinarith
    rw [h1, Real.sqrt_sq (by linarith)]
  have hne : delta ≠ (0, 0) := by
    intro hc
    rw [hc] at hlen
    unfold vec2.len at hlen
    rw [show ((0:ℝ),(0:ℝ)).1 ^ 2 + ((0:ℝ),(0:ℝ)).2 ^ 2 = 0 by norm_num] at hlen
    rw [Real.sqrt_zero] at hlen
    linarith
  have hdir : vec2.dir (vec2.angle delta) = vec2.dir (θ + 90) := by
    have hsne : s ≠ 0 := ne_of_lt hs
    rw [vec2.dir_angle hne, vec2.dir_add_90, hlen, hcomp]
    dsimp only
    refine Prod.ext_iff.mpr ⟨?_, ?_⟩
    · show (vec2.dir θ).2 * s / -s = -(vec2.dir θ).2
      rw [div_neg, mul_div_assoc, div_self hsne, mul_one]
    · show -(vec2.dir θ).1 * s / -s = (vec2.dir θ).1
      rw [div_neg, mul_div_assoc, div_self hsne, mul_one, neg_neg]
  obtain ⟨k, hk⟩ := vec2.dir_inj hdir
  have hθn : scalar.mod (vec2.angle delta + 90) 360 = scalar.mod (θ + 180) 360 := by
    rw [hk, show θ + 90 + 360 * (k:ℝ) + 90 = θ + 180 + 360 * (k:ℝ) by ring,
      scalar.mod_add_int]
  rw [Line.fromPoints_def, ← hdelta, hθn]
  have hdir180 : vec2.dir (scalar.mod (θ + 180) 360) =
      (-(vec2.dir θ).1, -(vec2.dir θ).2) := by
    rw [vec2.dir_smod, vec2.dir_add_180]
  rw [hdir180]
  have : vec2.dot a (-(vec2.dir θ).1, -(vec2.dir θ).2) =
      -(vec2.dot a (vec2.dir θ)) := by
    unfold vec2.dot
    ring
  rw [this]

/-! ## Further helper lemmas -/

theorem scalar.mod_mod_180 {θ : ℝ} (h0 : 0 ≤ θ) (h1 : θ < 360) :
    scalar.mod (scalar.mod (θ + 180) 360 + 180) 360 = θ := by
  have h2 : scalar.mod (θ + 180) 360 = θ + 180 - 360 * ⌊(θ + 180) / 360⌋ := rfl
  rw [h2]
  have h3 : θ + 180 - 360 * ⌊(θ + 180) / 360⌋ + 180 =
      θ + 360 * ((1 - ⌊(θ + 180) / 360⌋ : ℤ) : ℝ) := by push_cast; ring
  rw [h3, scalar.mod_add_int, scalar.mod_eq_self h0 h1]

theorem scalar.not_approx_small {a b M : ℝ} (ha : |a| ≤ M) (hb : |b| ≤ M)
    (h1 : 1 ≤ M) (h : scalar.EPSILON * M < |a - b|) : ¬ scalar.approx a b := by
  unfold scalar.approx
  intro hc
  have h2 : max 1 (max |a| |b|) ≤ M := max_le h1 (max_le ha hb)
  have h3 : (0 : ℝ) < scalar.EPSILON := scalar.epsilon_pos
  nlinarith

theorem scalar.not_approx_one_zero : ¬ scalar.approx 1 0 := by
  refine scalar.not_approx_small (M := 1) (by norm_num) (by norm_num) le_rfl ?_
  rw [sub_zero, abs_one]
  norm_num [scalar.EPSILON]

theorem Line.approx_self (l : Line) : Line.approx l l :=
  ⟨scalar.approx_refl _, scalar.approx_refl _⟩

theorem scalar.mod_add_180_abs {θ : ℝ} (h0 : 0 ≤ θ) (h1 : θ < 360) :
    |θ - scalar.mod (θ + 180) 360| = 180 := by
  by_cases hc : θ < 180
  · rw [scalar.mod_eq_self (by linarith) (by linarith),
      show θ - (θ + 180) = -180 by ring, abs_neg]
    norm_num
  · push_neg at hc
    have h2 : scalar.mod (θ + 180) 360 = θ - 180 := by
      rw [show θ + 180 = θ - 180 + 360 * ((1 : ℤ) : ℝ) by push_cast; ring,
        scalar.mod_add_int, scalar.mod_eq_self (by linarith) (by linarith)]
    rw [h2, show θ - (θ - 180) = 180 by ring]
    norm_num

/-! ## Concrete evaluations of `dir` and `angle` -/

theorem vec2.dir_zero : vec2.dir 0 = (1, 0) := by
  unfold vec2.dir
  norm_num

theorem vec2.dir_90 : vec2.dir 90 = (0, 1) := by
  unfold vec2.dir
  rw [show (90 : ℝ) * pi / 180 = pi / 2 by ring, Real.cos_pi_div_two,
    Real.sin_pi_div_two]

theorem vec2.dir_neg_90 : vec2.dir (-90) = (0, -1) := by
  unfold vec2.dir
  rw [show (-90 : ℝ) * pi / 180 = -(pi / 2) by ring, Real.cos_neg,
    Real.sin_neg, Real.cos_pi_div_two, Real.sin_pi_div_two]

theorem vec2.angle_pos_x {x : ℝ} (hx : 0 < x) : vec2.angle (x, 0) = 0 := by
  unfold vec2.angle
  have h1 : vec2.toC (x, 0) = (x : ℂ) := by
    apply Complex.ext <;> simp [vec2.toC]
  rw [h1, Complex.arg_ofReal_of_nonneg hx.le]
  simp

theorem vec2.angle_neg_y {y : ℝ} (hy : y < 0) : vec2.angle (0, y) = -90 := by
  unfold vec2.angle
  have h1 : vec2.toC (0, y) = ((-y : ℝ) : ℂ) * (-Complex.I) := by
    apply Complex.ext <;> simp [vec2.toC]
  rw [h1, Complex.arg_real_mul _ (by linarith), Complex.arg_neg_I]
  field_simp
  ring

theorem vec2.angle_neg_x {x : ℝ} (hx : x < 0) : vec2.angle (x, 0) = 180 := by
  unfold vec2.angle
  have h1 : vec2.toC (x, 0) = ((-x : ℝ) : ℂ) * (-1) := by
    apply Complex.ext <;> simp [vec2.toC]
  rw [h1, Complex.arg_real_mul _ (by linarith), Complex.arg_neg_one]
  field_simp

open Classical in
theorem Line.intersection_def (l1 l2 : Line) :
    Line.intersection l1 l2 =
      if scalar.approx (Line.normalDet l1 l2) 0 then none
      else
        some
          ((l1.offset * (vec2.dir l2.theta).2 -
              l2.offset * (vec2.dir l1.theta).2) / Line.normalDet l1 l2,
            ((vec2.dir l1.theta).1 * l2.offset -
              (vec2.dir l2.theta).1 * l1.offset) / Line.normalDet l1 l2) := rfl

/-! ## Claim theorems -/

/-- C1: `Line.intersection(l1, l2)` returns `null` exactly when the Cramer
determinant of the two unit normals is tolerantly zero; any returned point
satisfies both line equations exactly over real arithmetic (and the
no-intersection case is the `Option.none` constructor, never a sentinel
coordinate). -/
theorem C1_line_intersection (l1 l2 : Line) :
    (Line.intersection l1 l2 = none ↔ scalar.approx (Line.normalDet l1 l2) 0) ∧
    (∀ p : vec2, Line.intersection l1 l2 = some p →
      vec2.dot p (vec2.dir l1.theta) = l1.offset ∧
      vec2.dot p (vec2.dir l2.theta) = l2.offset) := by
  constructor
  · constructor
    · intro h
      by_cases hc : scalar.approx (Line.normalDet l1 l2) 0
      · exact hc
      · rw [Line.intersection_def, if_neg hc] at h
        exact absurd h (by simp)
    · intro h
      rw [Line.intersection_def, if_pos h]
  · intro p hp
    by_cases hc : scalar.approx (Line.normalDet l1 l2) 0
    · rw [Line.intersection_def, if_pos hc] at hp
      exact absurd hp (by simp)
    · rw [Line.intersection_def, if_neg hc] at hp
      have hdet : Line.normalDet l1 l2 ≠ 0 := by
        intro h0
        apply hc
        rw [h0]
        exact scalar.approx_refl 0
      have hp' := (Option.some.injEq _ _).mp hp
      rw [← hp']
      unfold Line.normalDet at hdet ⊢
      constructor
      · unfold vec2.dot
        dsimp only
        field_simp
        ring
      · unfold vec2.dot
        dsimp only
        field_simp
        ring

/-- Witness for C1 at the concrete lines `⟨0, 2⟩` and `⟨90, 3⟩`, whose
intersection is the point `(2, 3)`. -/
theorem C1_line_intersection_witness :
    Line.intersection ⟨0, 2⟩ ⟨90, 3⟩ = some (2, 3) ∧
      vec2.dot (2, 3) (vec2.dir (0 : ℝ)) = 2 ∧
      vec2.dot (2, 3) (vec2.dir (90 : ℝ)) = 3 := by
  have hdir0 : vec2.dir (0 : ℝ) = (1, 0) := by
    unfold vec2.dir
    norm_num
  have hdir90 : vec2.dir (90 : ℝ) = (0, 1) := by
    unfold vec2.dir
    rw [show (90 : ℝ) * pi / 180 = pi / 2 by ring, Real.cos_pi_div_two,
      Real.sin_pi_div_two]
  have hdet : Line.normalDet ⟨0, 2⟩ ⟨90, 3⟩ = 1 := by
    unfold Line.normalDet
    dsimp only
    rw [hdir0, hdir90]
    norm_num
  have hsome : Line.intersection ⟨0, 2⟩ ⟨90, 3⟩ = some (2, 3) := by
    rw [Line.intersection_def, hdet, if_neg scalar.not_approx_one_zero]
    dsimp only
    rw [hdir0, hdir90]
    norm_num
  have heqs := (C1_line_intersection ⟨0, 2⟩ ⟨90, 3⟩).2 (2, 3) hsome
  exact ⟨hsome, heqs.1, heqs.2⟩

/-- C3: every Line-producing operation stores `theta` normalized into
`[0, 360)`: `of` (which also keeps `offset` unchanged and identifies
`theta` with `theta + 360`), `fromPoints`, `fromPointDirection`, `invert`
and `transform`. -/
theorem C3_theta_normalized :
    (∀ θ o : ℝ, 0 ≤ (Line.of θ o).theta ∧ (Line.of θ o).theta < 360 ∧
      (Line.of θ o).offset = o ∧
      (Line.of (θ + 360) o).theta = (Line.of θ o).theta) ∧
    (∀ p1 p2 : vec2, 0 ≤ (Line.fromPoints p1 p2).theta ∧
      (Line.fromPoints p1 p2).theta < 360) ∧
    (∀ (p : vec2) (d : ℝ), 0 ≤ (Line.fromPointDirection p d).theta ∧
      (Line.fromPointDirection p d).theta < 360) ∧
    (∀ l : Line, 0 ≤ (Line.invert l).theta ∧ (Line.invert l).theta < 360) ∧
    (∀ (l : Line) (m : mat2d), 0 ≤ (Line.transform l m).theta ∧
      (Line.transform l m).theta < 360) := by
  refine ⟨?_, ?_, ?_, ?_, ?_⟩
  · intro θ o
    refine ⟨scalar.mod_nonneg θ, scalar.mod_lt θ, rfl, ?_⟩
    show scalar.mod (θ + 360) 360 = scalar.mod θ 360
    rw [show θ + 360 = θ + 360 * ((1 : ℤ) : ℝ) by norm_num, scalar.mod_add_int]
  · intro p1 p2
    exact ⟨scalar.mod_nonneg _, scalar.mod_lt _⟩
  · intro p d
    exact ⟨scalar.mod_nonneg _, scalar.mod_lt _⟩
  · intro l
    exact ⟨scalar.mod_nonneg _, scalar.mod_lt _⟩
  · intro l m
    exact ⟨scalar.mod_nonneg _, scalar.mod_lt _⟩

/-- C4: `invert` is an involution on lines with normalized `theta`:
`invert(invert(l))` equals `l` exactly, hence is both `approx` and `same`
to `l`. -/
theorem C4_invert_involution (l : Line) (h0 : 0 ≤ l.theta)
    (h1 : l.theta < 360) :
    Line.invert (Line.invert l) = l ∧
      Line.approx (Line.invert (Line.invert l)) l ∧
      Line.same (Line.invert (Line.invert l)) l := by
  have key : Line.invert (Line.invert l) = l := by
    show Line.mk (scalar.mod (scalar.mod (l.theta + 180) 360 + 180) 360)
      (-(-l.offset)) = l
    rw [scalar.mod_mod_180 h0 h1, neg_neg]
  refine ⟨key, ?_, ?_⟩
  · rw [key]
    exact Line.approx_self l
  · rw [key]
    exact Or.inl (Line.approx_self l)

/-- Witness for C4 at the concrete line `⟨90, 5⟩`. -/
theorem C4_invert_involution_witness :
    Line.invert (Line.invert ⟨90, 5⟩) = ⟨90, 5⟩ ∧
      Line.approx (Line.invert (Line.invert ⟨90, 5⟩)) ⟨90, 5⟩ ∧
      Line.same (Line.invert (Line.invert ⟨90, 5⟩)) ⟨90, 5⟩ :=
  C4_invert_involution ⟨90, 5⟩ (by norm_num) (by norm_num)

/-- C5: the reflection matrix of a line fixes every point of that line
exactly over real arithmetic. -/
theorem C5_reflection_fixes_line (l : Line) (p : vec2)
    (hp : vec2.dot p (vec2.dir l.theta) = l.offset) :
    vec2.transformMat2d p (Line.reflectionMatrix l) = p := by
  unfold Line.reflectionMatrix vec2.transformMat2d
  unfold vec2.dot at hp
  dsimp only
  refine Prod.ext_iff.mpr ⟨?_, ?_⟩
  · linear_combination (-2 * (vec2.dir l.theta).1) * hp
  · linear_combination (-2 * (vec2.dir l.theta).2) * hp

/-- Witness for C5: the point `(1, 0)` lies on the line `⟨0, 1⟩` and is
fixed by its reflection matrix. -/
theorem C5_reflection_fixes_line_witness :
    vec2.transformMat2d (1, 0) (Line.reflectionMatrix ⟨0, 1⟩) = (1, 0) :=
  C5_reflection_fixes_line ⟨0, 1⟩ (1, 0) (by
    unfold vec2.dot vec2.dir
    norm_num)

/-- The reversed construction equals the inversion of the original line. -/
theorem Line.fromPoints_swap {p1 p2 : vec2} (hne : p1 ≠ p2) :
    Line.fromPoints p2 p1 =
      ⟨scalar.mod ((Line.fromPoints p1 p2).theta + 180) 360,
        -(Line.fromPoints p1 p2).offset⟩ := by
  have hθ0 : 0 ≤ (Line.fromPoints p1 p2).theta := scalar.mod_nonneg _
  have hθ1 : (Line.fromPoints p1 p2).theta < 360 := scalar.mod_lt _
  have hr : 0 < vec2.len (vec2.sub p2 p1) := vec2.len_pos (vec2.sub_ne hne)
  have hrne : vec2.len (vec2.sub p2 p1) ≠ 0 := ne_of_gt hr
  have hdirθ := Line.dir_fromPoints_theta hne
  have hab : vec2.sub p1 p2 =
      vec2.scale (vec2.dir ((Line.fromPoints p1 p2).theta - 90))
        (-(vec2.len (vec2.sub p2 p1))) := by
    rw [vec2.dir_sub_90, hdirθ]
    set r := vec2.len (vec2.sub p2 p1) with hrdef
    dsimp only [vec2.scale, vec2.sub]
    refine Prod.ext_iff.mpr ⟨?_, ?_⟩
    · dsimp only
      field_simp
      ring
    · dsimp only
      field_simp
      ring
  have hneg := Line.fromPoints_eq_neg hθ0 hθ1 (neg_neg_of_pos hr) hab
  rw [hneg, Line.fromPoints_on2 hne]

/-- C7: `fromPoints(p1, p2)` and `fromPoints(p2, p1)` are `same` but not
`approx` whenever the points are distinct and the line misses the
origin. -/
theorem C7_direction_sensitivity (p1 p2 : vec2) (hne : p1 ≠ p2)
    (hoff : (Line.fromPoints p1 p2).offset ≠ 0) :
    Line.same (Line.fromPoints p1 p2) (Line.fromPoints p2 p1) ∧
      ¬ Line.approx (Line.fromPoints p1 p2) (Line.fromPoints p2 p1) := by
  have hθ0 : 0 ≤ (Line.fromPoints p1 p2).theta := scalar.mod_nonneg _
  have hθ1 : (Line.fromPoints p1 p2).theta < 360 := scalar.mod_lt _
  have hswap := Line.fromPoints_swap hne
  constructor
  · right
    rw [hswap]
    exact Line.approx_self _
  · intro hc
    have hl21θ : (Line.fromPoints p2 p1).theta =
        scalar.mod ((Line.fromPoints p1 p2).theta + 180) 360 := by
      rw [hswap]
    have habs : |(Line.fromPoints p1 p2).theta -
        (Line.fromPoints p2 p1).theta| = 180 := by
      rw [hl21θ]
      exact scalar.mod_add_180_abs hθ0 hθ1
    have h1 : |(Line.fromPoints p1 p2).theta| ≤ 360 := by
      rw [abs_of_nonneg hθ0]
      linarith
    have h2 : |(Line.fromPoints p2 p1).theta| ≤ 360 := by
      rw [abs_of_nonneg (by rw [hl21θ]; exact scalar.mod_nonneg _)]
      rw [hl21θ]
      linarith [scalar.mod_lt ((Line.fromPoints p1 p2).theta + 180)]
    exact scalar.not_approx h1 h2 habs.ge hc.1

/-- Evaluation of `fromPoints((0,1), (1,1))`: the horizontal line `y = 1`
with downward-to-upward normal, i.e. `⟨90, 1⟩`. -/
theorem Line.fromPoints_eval_01_11 : Line.fromPoints (0, 1) (1, 1) = ⟨90, 1⟩ := by
  rw [Line.fromPoints_def]
  have hsub : vec2.sub ((1 : ℝ), (1 : ℝ)) ((0 : ℝ), (1 : ℝ)) = (1, 0) := by
    unfold vec2.sub
    norm_num
  rw [hsub, vec2.angle_pos_x (by norm_num : (0:ℝ) < 1)]
  rw [show (0 : ℝ) + 90 = 90 by norm_num,
    scalar.mod_eq_self (by norm_num) (by norm_num), vec2.dir_90]
  unfold vec2.dot
  norm_num

/-- Witness for C7 at the points `(0,1)` and `(1,1)`. -/
theorem C7_direction_sensitivity_witness :
    Line.same (Line.fromPoints (0, 1) (1, 1)) (Line.fromPoints (1, 1) (0, 1)) ∧
      ¬ Line.approx (Line.fromPoints (0, 1) (1, 1))
        (Line.fromPoints (1, 1) (0, 1)) :=
  C7_direction_sensitivity (0, 1) (1, 1)
    (by
      intro h
      have h1 := congrArg Prod.fst h
      norm_num at h1)
    (by
      rw [Line.fromPoints_eval_01_11]
      norm_num)

/-! ## Rect invariant lemmas -/

theorem Rect.fromPoints_inv (p : vec2) (ps : List vec2) :
    Rect.inv (Rect.fromPoints p ps) := by
  unfold Rect.fromPoints
  suffices h : ∀ (l : List vec2) (acc : Rect), Rect.inv acc →
      Rect.inv (l.foldl
        (fun acc q =>
          ((Min.min acc.1.1 q.1, Min.min acc.1.2 q.2),
            (Max.max acc.2.1 q.1, Max.max acc.2.2 q.2))) acc) by
    exact h ps _ ⟨le_rfl, le_rfl⟩
  intro l
  induction l with
  | nil => intro acc h; exact h
  | cons q l ih =>
    intro acc h
    apply ih
    exact ⟨le_trans (min_le_left _ _) (le_trans h.1 (le_max_left _ _)),
      le_trans (min_le_left _ _) (le_trans h.2 (le_max_left _ _))⟩

theorem Rect.scale_inv (r : Rect) (s : vec2) (hinv : Rect.inv r)
    (h1 : 0 ≤ s.1) (h2 : 0 ≤ s.2) : Rect.inv (Rect.scale r s) :=
  ⟨mul_le_mul_of_nonneg_right hinv.1 h1, mul_le_mul_of_nonneg_right hinv.2 h2⟩

theorem Rect.intersect_inv (r : Rect) (rs : List Rect) (q : vec2)
    (hr : Rect.containsPoint r q) (hrs : ∀ r' ∈ rs, Rect.containsPoint r' q) :
    Rect.inv (Rect.intersect r rs) := by
  unfold Rect.intersect
  suffices h : ∀ (l : List Rect) (acc : Rect), Rect.containsPoint acc q →
      (∀ r' ∈ l, Rect.containsPoint r' q) →
      Rect.containsPoint (l.foldl
        (fun acc q' =>
          ((Max.max acc.1.1 q'.1.1, Max.max acc.1.2 q'.1.2),
            (Min.min acc.2.1 q'.2.1, Min.min acc.2.2 q'.2.2))) acc) q by
    have h2 := h rs r hr hrs
    exact ⟨le_trans h2.1 h2.2.1, le_trans h2.2.2.1 h2.2.2.2⟩
  intro l
  induction l with
  | nil => intro acc hacc _; exact hacc
  | cons r' l ih =>
    intro acc hacc hl
    apply ih
    · have hr' := hl r' (List.mem_cons_self _ _)
      exact ⟨max_le hacc.1 hr'.1, le_min hacc.2.1 hr'.2.1,
        max_le hacc.2.2.1 hr'.2.2.1, le_min hacc.2.2.2 hr'.2.2.2⟩
    · intro x hx
      exact hl x (List.mem_cons_of_mem _ hx)

/-- C8 (amended): the `Rect` constructors `fromPoints` (on at least one
point), `bySize` and `fromCenter` establish the `min ≤ max` invariant;
`scale` preserves it for factors with nonnegative components, and
`intersect` preserves it whenever the rects share a common point. -/
theorem C8_rect_invariant :
    (∀ (p : vec2) (ps : List vec2), Rect.inv (Rect.fromPoints p ps)) ∧
    (∀ m size : vec2, Rect.inv (Rect.bySize m size)) ∧
    (∀ c size : vec2, Rect.inv (Rect.fromCenter c size)) ∧
    (∀ (r : Rect) (s : vec2), Rect.inv r → 0 ≤ s.1 → 0 ≤ s.2 →
      Rect.inv (Rect.scale r s)) ∧
    (∀ (r : Rect) (rs : List Rect) (q : vec2), Rect.containsPoint r q →
      (∀ r' ∈ rs, Rect.containsPoint r' q) →
      Rect.inv (Rect.intersect r rs)) :=
  ⟨Rect.fromPoints_inv, fun m size => Rect.fromPoints_inv m _,
    fun c size => Rect.fromPoints_inv _ _, Rect.scale_inv, Rect.intersect_inv⟩

/-- Witness for C8: scaling a rect by `(2, 3)` and intersecting two
overlapping rects both keep the invariant. -/
theorem C8_rect_invariant_witness :
    Rect.inv (Rect.scale ((0, 0), (1, 1)) (2, 3)) ∧
      Rect.inv (Rect.intersect ((0, 0), (2, 2)) [((1, 1), (3, 3))]) := by
  constructor
  · exact C8_rect_invariant.2.2.2.1 ((0, 0), (1, 1)) (2, 3)
      ⟨by norm_num, by norm_num⟩ (by norm_num) (by norm_num)
  · refine C8_rect_invariant.2.2.2.2 ((0, 0), (2, 2)) [((1, 1), (3, 3))] (1, 1)
      ⟨by norm_num, by norm_num, by norm_num, by norm_num⟩ ?_
    intro r' hr'
    rw [List.mem_singleton] at hr'
    subst hr'
    exact ⟨by norm_num, by norm_num, by norm_num, by norm_num⟩

/-- C8 counterexample: the unit square satisfies the invariant, but
scaling it by the scalar factor `-1` (the source's `[-1, -1]` case)
breaks it. -/
theorem C8_rect_invariant_cex :
    Rect.inv ((0, 0), (1, 1)) ∧
      ¬ Rect.inv (Rect.scale ((0, 0), (1, 1)) (-1, -1)) := by
  constructor
  · exact ⟨by norm_num, by norm_num⟩
  · intro hc
    have h1 := hc.1
    norm_num [Rect.scale, vec2.mul] at h1

/-! ## Segment evaluation helpers -/

theorem vec2.dist_eval (a b : vec2) (c : ℝ) (hc : 0 ≤ c)
    (h : (a.1 - b.1) ^ 2 + (a.2 - b.2) ^ 2 = c ^ 2) : vec2.dist a b = c := by
  unfold vec2.dist vec2.len vec2.sub
  dsimp only
  rw [h, Real.sqrt_sq hc]

theorem scalar.not_approx_two_zero : ¬ scalar.approx 2 0 := by
  refine scalar.not_approx_small (M := 2) ?_ (by norm_num) (by norm_num) ?_
  · rw [show |(2 : ℝ)| = 2 from abs_of_nonneg (by norm_num)]
  · rw [sub_zero, show |(2 : ℝ)| = 2 from abs_of_nonneg (by norm_num)]
    norm_num [scalar.EPSILON]

theorem scalar.not_approx_neg_one_zero : ¬ scalar.approx (-1) 0 := by
  refine scalar.not_approx_small (M := 1) ?_ (by norm_num) le_rfl ?_
  · rw [abs_neg, abs_one]
  · rw [sub_zero, abs_neg, abs_one]
    norm_num [scalar.EPSILON]

open Classical in
theorem Segment.closestPoint_def (s : Segment) (p : vec2) :
    Segment.closestPoint s p =
      if scalar.approx (vec2.dist s.1 s.2) 0 then s.1
      else if vec2.dot (vec2.sub p s.1) (vec2.sub s.2 s.1) /
          vec2.dist s.1 s.2 < 0 then s.1
      else if vec2.dot (vec2.sub p s.1) (vec2.sub s.2 s.1) /
          vec2.dist s.1 s.2 > vec2.dist s.1 s.2 then s.2
      else vec2.add s.1 (vec2.scale (vec2.sub s.2 s.1)
        (vec2.dot (vec2.sub p s.1) (vec2.sub s.2 s.1) /
          vec2.dist s.1 s.2)) := rfl

open Classical in
theorem Segment.intersection_eq_none (s1 s2 : Segment)
    (h : Line.intersection (Line.fromPoints s1.1 s1.2)
      (Line.fromPoints s2.1 s2.2) = none) :
    Segment.intersection s1 s2 = none := by
  have hdef : Segment.intersection s1 s2 =
      match Line.intersection (Line.fromPoints s1.1 s1.2)
          (Line.fromPoints s2.1 s2.2) with
      | none => none
      | some q =>
        if vec2.dist q s1.1 ≤ vec2.dist q s1.2 ∧
            vec2.dist q s2.1 ≤ vec2.dist q s2.2 then some q
        else none := rfl
  rw [hdef, h]

open Classical in
theorem Segment.intersection_eq_some (s1 s2 : Segment) (p : vec2)
    (h : Line.intersection (Line.fromPoints s1.1 s1.2)
      (Line.fromPoints s2.1 s2.2) = some p) :
    Segment.intersection s1 s2 =
      if vec2.dist p s1.1 ≤ vec2.dist p s1.2 ∧
          vec2.dist p s2.1 ≤ vec2.dist p s2.2 then some p
      else none := by
  have hdef : Segment.intersection s1 s2 =
      match Line.intersection (Line.fromPoints s1.1 s1.2)
          (Line.fromPoints s2.1 s2.2) with
      | none => none
      | some q =>
        if vec2.dist q s1.1 ≤ vec2.dist q s1.2 ∧
            vec2.dist q s2.1 ≤ vec2.dist q s2.2 then some q
        else none := rfl
  rw [hdef, h]

/-- C9: on the segment `((0,0),(2,0))` with query point `(1,0)`, the
source's `closestPoint` returns the endpoint `(2,0)`, although the
segment point `(0,0) + (1/2)·((2,0)-(0,0)) = (1,0)` is strictly closer
to the query point (distance `0` versus `1`); `distance` inherits the
same wrong value `1`. -/
theorem C9_closestPoint_bug :
    Segment.closestPoint ((0, 0), (2, 0)) (1, 0) = (2, 0) ∧
      vec2.dist (1, 0)
          (vec2.add (0, 0) (vec2.scale (vec2.sub (2, 0) (0, 0)) (1 / 2))) <
        vec2.dist (1, 0) (Segment.closestPoint ((0, 0), (2, 0)) (1, 0)) ∧
      Segment.distance ((0, 0), (2, 0)) (1, 0) = 1 := by
  have hd : vec2.dist ((0 : ℝ), (0 : ℝ)) ((2 : ℝ), (0 : ℝ)) = 2 :=
    vec2.dist_eval _ _ 2 (by norm_num) (by norm_num)
  have hdot : vec2.dot (vec2.sub ((1 : ℝ), (0 : ℝ)) ((0 : ℝ), (0 : ℝ)))
      (vec2.sub ((2 : ℝ), (0 : ℝ)) ((0 : ℝ), (0 : ℝ))) = 2 := by
    unfold vec2.dot vec2.sub
    norm_num
  have hcp : Segment.closestPoint ((0, 0), (2, 0)) (1, 0) = (2, 0) := by
    rw [Segment.closestPoint_def]
    dsimp only
    rw [hd, hdot, if_neg scalar.not_approx_two_zero,
      if_neg (by norm_num : ¬ ((2 : ℝ) / 2 < 0)),
      if_neg (by norm_num : ¬ ((2 : ℝ) / 2 > 2))]
    unfold vec2.add vec2.scale vec2.sub
    norm_num
  have hmid : vec2.add ((0 : ℝ), (0 : ℝ))
      (vec2.scale (vec2.sub ((2 : ℝ), (0 : ℝ)) ((0 : ℝ), (0 : ℝ))) (1 / 2)) =
      (1, 0) := by
    unfold vec2.add vec2.scale vec2.sub
    norm_num
  refine ⟨hcp, ?_, ?_⟩
  · rw [hcp, hmid]
    rw [vec2.dist_eval (1, 0) (1, 0) 0 le_rfl (by norm_num),
      vec2.dist_eval (1, 0) (2, 0) 1 (by norm_num) (by norm_num)]
    norm_num
  · unfold Segment.distance
    rw [hcp]
    exact vec2.dist_eval (1, 0) (2, 0) 1 (by norm_num) (by norm_num)

/-- C10: the source's `midpoint` of `((0,0),(2,0))` is the endpoint sum
`(2,0)`, not the halfway point `(1,0)`, and it is not equidistant from
the two endpoints. -/
theorem C10_midpoint_bug :
    Segment.midpoint ((0, 0), (2, 0)) = (2, 0) ∧
      Segment.midpoint ((0, 0), (2, 0)) ≠
        vec2.scale (vec2.add (0, 0) (2, 0)) (1 / 2) ∧
      vec2.dist (Segment.midpoint ((0, 0), (2, 0))) (0, 0) ≠
        vec2.dist (Segment.midpoint ((0, 0), (2, 0))) (2, 0) := by
  have hm : Segment.midpoint ((0, 0), (2, 0)) = ((2 : ℝ), (0 : ℝ)) := by
    unfold Segment.midpoint vec2.add
    norm_num
  refine ⟨hm, ?_, ?_⟩
  · rw [hm]
    intro h
    have h1 := congrArg Prod.fst h
    unfold vec2.scale vec2.add at h1
    norm_num at h1
  · rw [hm,
      vec2.dist_eval (2, 0) (0, 0) 2 (by norm_num) (by norm_num),
      vec2.dist_eval (2, 0) (2, 0) 0 le_rfl (by norm_num)]
    norm_num

/-- The supporting lines of two nondegenerate parallel segments have a
zero Cramer determinant. -/
theorem Line.normalDet_parallel {s1 s2 : Segment} (h1 : s1.1 ≠ s1.2)
    (h2 : s2.1 ≠ s2.2)
    (hpar : (s1.2.1 - s1.1.1) * (s2.2.2 - s2.1.2) -
      (s1.2.2 - s1.1.2) * (s2.2.1 - s2.1.1) = 0) :
    Line.normalDet (Line.fromPoints s1.1 s1.2) (Line.fromPoints s2.1 s2.2) = 0 := by
  unfold Line.normalDet
  rw [Line.dir_fromPoints_theta h1, Line.dir_fromPoints_theta h2]
  set r1 := vec2.len (vec2.sub s1.2 s1.1) with hr1def
  set r2 := vec2.len (vec2.sub s2.2 s2.1) with hr2def
  have hr1 : r1 ≠ 0 := ne_of_gt (vec2.len_pos (vec2.sub_ne h1))
  have hr2 : r2 ≠ 0 := ne_of_gt (vec2.len_pos (vec2.sub_ne h2))
  dsimp only [vec2.sub]
  field_simp
  linear_combination (r1 * r2) * hpar

/-- C2 (amended): `Segment.intersection` returns `none` for segments on
parallel supporting lines, and otherwise returns the supporting-line
intersection point `p` exactly when `p` is no farther from each
segment's own first endpoint than from that same segment's own second
endpoint. -/
theorem C2_segment_intersection (s1 s2 : Segment) :
    (s1.1 ≠ s1.2 → s2.1 ≠ s2.2 →
      (s1.2.1 - s1.1.1) * (s2.2.2 - s2.1.2) -
        (s1.2.2 - s1.1.2) * (s2.2.1 - s2.1.1) = 0 →
      Segment.intersection s1 s2 = none) ∧
    (∀ p : vec2,
      Line.intersection (Line.fromPoints s1.1 s1.2)
          (Line.fromPoints s2.1 s2.2) = some p →
      (Segment.intersection s1 s2 = some p ↔
        (vec2.dist p s1.1 ≤ vec2.dist p s1.2 ∧
          vec2.dist p s2.1 ≤ vec2.dist p s2.2))) := by
  constructor
  · intro h1 h2 hpar
    have hdet := Line.normalDet_parallel h1 h2 hpar
    have hline : Line.intersection (Line.fromPoints s1.1 s1.2)
        (Line.fromPoints s2.1 s2.2) = none := by
      rw [Line.intersection_def, hdet, if_pos scalar.approx_zero_zero]
    exact Segment.intersection_eq_none s1 s2 hline
  · intro p hp
    rw [Segment.intersection_eq_some s1 s2 p hp]
    constructor
    · intro hres
      by_cases hc : vec2.dist p s1.1 ≤ vec2.dist p s1.2 ∧
          vec2.dist p s2.1 ≤ vec2.dist p s2.2
      · exact hc
      · rw [if_neg hc] at hres
        exact absurd hres (by simp)
    · intro hc
      rw [if_pos hc]

/-- Witness for C2 at two nondegenerate horizontal parallel segments. -/
theorem C2_segment_intersection_witness :
    Segment.intersection ((0, 0), (1, 0)) ((0, 1), (1, 1)) = none :=
  (C2_segment_intersection ((0, 0), (1, 0)) ((0, 1), (1, 1))).1
    (by
      intro h
      have h1 := congrArg Prod.fst h
      norm_num at h1)
    (by
      intro h
      have h1 := congrArg Prod.fst h
      norm_num at h1)
    (by norm_num)

/-- Evaluation of the supporting line of the segment `((-1,0),(2,0))`. -/
theorem Line.fromPoints_eval_seg1 : Line.fromPoints (-1, 0) (2, 0) = ⟨90, 0⟩ := by
  rw [Line.fromPoints_def]
  have hsub : vec2.sub ((2 : ℝ), (0 : ℝ)) ((-1 : ℝ), (0 : ℝ)) = (3, 0) := by
    unfold vec2.sub
    norm_num
  rw [hsub, vec2.angle_pos_x (by norm_num : (0 : ℝ) < 3),
    show (0 : ℝ) + 90 = 90 by norm_num,
    scalar.mod_eq_self (by norm_num) (by norm_num), vec2.dir_90]
  unfold vec2.dot
  norm_num

/-- Evaluation of the supporting line of the segment `((0,3),(0,-4))`. -/
theorem Line.fromPoints_eval_seg2 : Line.fromPoints (0, 3) (0, -4) = ⟨0, 0⟩ := by
  rw [Line.fromPoints_def]
  have hsub : vec2.sub ((0 : ℝ), (-4 : ℝ)) ((0 : ℝ), (3 : ℝ)) = (0, -7) := by
    unfold vec2.sub
    norm_num
  rw [hsub, vec2.angle_neg_y (by norm_num : (-7 : ℝ) < 0),
    show (-90 : ℝ) + 90 = 0 by norm_num,
    scalar.mod_eq_self le_rfl (by norm_num), vec2.dir_zero]
  unfold vec2.dot
  norm_num

/-- C2 counterexample: for `s1 = ((-1,0),(2,0))` and
`s2 = ((0,3),(0,-4))` the code returns the supporting-line intersection
point `(0,0)`, although the claim's cross-paired acceptance condition
requires `dist(p, a2) ≤ dist(p, b1)`, which is `3 ≤ 2` and fails. -/
theorem C2_segment_intersection_cex :
    Segment.intersection ((-1, 0), (2, 0)) ((0, 3), (0, -4)) = some (0, 0) ∧
      ¬ (vec2.dist (0, 0) ((0 : ℝ), (3 : ℝ)) ≤
          vec2.dist (0, 0) ((2 : ℝ), (0 : ℝ))) := by
  have hd1 : vec2.dist ((0 : ℝ), (0 : ℝ)) ((-1 : ℝ), (0 : ℝ)) = 1 :=
    vec2.dist_eval _ _ 1 (by norm_num) (by norm_num)
  have hd2 : vec2.dist ((0 : ℝ), (0 : ℝ)) ((2 : ℝ), (0 : ℝ)) = 2 :=
    vec2.dist_eval _ _ 2 (by norm_num) (by norm_num)
  have hd3 : vec2.dist ((0 : ℝ), (0 : ℝ)) ((0 : ℝ), (3 : ℝ)) = 3 :=
    vec2.dist_eval _ _ 3 (by norm_num) (by norm_num)
  have hd4 : vec2.dist ((0 : ℝ), (0 : ℝ)) ((0 : ℝ), (-4 : ℝ)) = 4 :=
    vec2.dist_eval _ _ 4 (by norm_num) (by norm_num)
  constructor
  · have hdet : Line.normalDet ⟨90, 0⟩ ⟨0, 0⟩ = -1 := by
      unfold Line.normalDet
      dsimp only
      rw [vec2.dir_90, vec2.dir_zero]
      norm_num
    have hline : Line.intersection (Line.fromPoints (-1, 0) (2, 0))
        (Line.fromPoints (0, 3) (0, -4)) = some (0, 0) := by
      rw [Line.fromPoints_eval_seg1, Line.fromPoints_eval_seg2,
        Line.intersection_def, hdet, if_neg scalar.not_approx_neg_one_zero]
      dsimp only
      rw [vec2.dir_90, vec2.dir_zero]
      norm_num
    rw [Segment.intersection_eq_some ((-1, 0), (2, 0)) ((0, 3), (0, -4))
        (0, 0) hline,
      if_pos ⟨by rw [hd1, hd2]; norm_num, by rw [hd3, hd4]; norm_num⟩]
  · rw [hd3, hd2]
    norm_num

/-! ## Transform round-trip machinery -/

theorem vec2.transformMat2d_affine (m : mat2d) (u v w : vec2) (t : ℝ) :
    vec2.transformMat2d (vec2.add u (vec2.scale (vec2.sub v w) t)) m =
      vec2.add (vec2.transformMat2d u m)
        (vec2.scale (vec2.sub (vec2.transformMat2d v m)
          (vec2.transformMat2d w m)) t) := by
  unfold vec2.transformMat2d vec2.add vec2.scale vec2.sub
  dsimp only
  refine Prod.ext_iff.mpr ⟨by ring, by ring⟩

theorem mat2d.invert_apply (m : mat2d) (h : mat2d.det m ≠ 0) (v : vec2) :
    vec2.transformMat2d (vec2.transformMat2d v m) (mat2d.invert m) = v := by
  unfold mat2d.det at h
  unfold mat2d.invert vec2.transformMat2d mat2d.det
  dsimp only
  refine Prod.ext_iff.mpr ⟨?_, ?_⟩
  · field_simp
    ring
  · field_simp
    ring

theorem mat2d.apply_inj (m : mat2d) (h : mat2d.det m ≠ 0) {u v : vec2}
    (huv : vec2.transformMat2d u m = vec2.transformMat2d v m) : u = v := by
  have h1 := congrArg (fun w => vec2.transformMat2d w (mat2d.invert m)) huv
  dsimp only at h1
  rwa [mat2d.invert_apply m h, mat2d.invert_apply m h] at h1

theorem vec2.add_dir_ne (q : vec2) (x : ℝ) : q ≠ vec2.add q (vec2.dir x) := by
  intro hc
  have h1 := congrArg Prod.fst hc
  have h2 := congrArg Prod.snd hc
  dsimp only [vec2.add] at h1 h2
  apply vec2.dir_ne x
  refine Prod.ext_iff.mpr ⟨?_, ?_⟩
  · show (vec2.dir x).1 = 0
    linarith
  · show (vec2.dir x).2 = 0
    linarith

/-- The foot of the normal lies on the line. -/
theorem Line.foot_on (l : Line) :
    vec2.dot (vec2.scale (vec2.dir l.theta) l.offset) (vec2.dir l.theta) =
      l.offset := by
  have h1 := vec2.dir_sq l.theta
  unfold vec2.dot vec2.scale
  dsimp only
  linear_combination l.offset * h1

/-- The point one unit along the tangent from the foot lies on the line. -/
theorem Line.foot_tangent_on (l : Line) :
    vec2.dot (vec2.add (vec2.scale (vec2.dir l.theta) l.offset)
      (vec2.dir (l.theta - 90))) (vec2.dir l.theta) = l.offset := by
  have h1 := vec2.dir_sq l.theta
  rw [vec2.dir_sub_90]
  unfold vec2.dot vec2.add vec2.scale
  dsimp only
  linear_combination l.offset * h1

/-- Any point of the foot-plus-scaled-tangent form lies on the line. -/
theorem Line.foot_tangent_scale_on (l : Line) (t : ℝ) :
    vec2.dot (vec2.add (vec2.scale (vec2.dir l.theta) l.offset)
      (vec2.scale (vec2.dir (l.theta - 90)) t)) (vec2.dir l.theta) =
      l.offset := by
  have h1 := vec2.dir_sq l.theta
  rw [vec2.dir_sub_90]
  unfold vec2.dot vec2.add vec2.scale
  dsimp only
  linear_combination l.offset * h1

/-- Applying `fromPoints` to two distinct points of a normalized line yields a
line that is `same` as it. -/
theorem Line.fromPoints_same_of_mem {l : Line} {a b : vec2}
    (hθ0 : 0 ≤ l.theta) (hθ1 : l.theta < 360) (hab : a ≠ b)
    (ha : vec2.dot a (vec2.dir l.theta) = l.offset)
    (hb : vec2.dot b (vec2.dir l.theta) = l.offset) :
    Line.same (Line.fromPoints a b) l := by
  have hnne : vec2.dir l.theta ≠ (0, 0) := vec2.dir_ne _
  have hperp : vec2.dot (vec2.sub b a) (vec2.dir l.theta) = 0 := by
    unfold vec2.dot at ha hb
    unfold vec2.dot vec2.sub
    dsimp only
    linarith
  obtain ⟨t, ht⟩ := vec2.perp_decomp hnne hperp
  have hscale : vec2.sub b a = vec2.scale (vec2.dir (l.theta - 90)) (-t) := by
    rw [ht, vec2.dir_sub_90]
    unfold vec2.scale
    dsimp only
    refine Prod.ext_iff.mpr ⟨by ring, by ring⟩
  have htne : t ≠ 0 := by
    intro hc
    rw [hc] at ht
    simp only [zero_mul] at ht
    exact vec2.sub_ne hab ht
  rcases lt_or_gt_of_ne htne with hlt | hgt
  · have heq := Line.fromPoints_eq_pos hθ0 hθ1
      (by linarith : (0 : ℝ) < -t) hscale
    rw [heq, ha]
    left
    exact Line.approx_self l
  · have heq := Line.fromPoints_eq_neg hθ0 hθ1
      (by linarith : -t < 0) hscale
    rw [heq, ha]
    right
    show Line.approx
      ⟨scalar.mod (scalar.mod (l.theta + 180) 360 + 180) 360, -(-l.offset)⟩ l
    rw [scalar.mod_mod_180 hθ0 hθ1, neg_neg]
    exact Line.approx_self l

/-- C6: transforming a normalized line by an invertible affine matrix and
then by its inverse yields a line `same` as the original. -/
theorem C6_transform_roundtrip (l : Line) (m : mat2d) (hθ0 : 0 ≤ l.theta)
    (hθ1 : l.theta < 360) (hdet : mat2d.det m ≠ 0) :
    Line.same (Line.transform (Line.transform l m) (mat2d.invert m)) l := by
  set n := vec2.dir l.theta with hn
  set d := vec2.dir (l.theta - 90) with hd
  set p1 := vec2.scale n l.offset with hp1
  set p2 := vec2.add p1 d with hp2
  set Tp1 := vec2.transformMat2d p1 m with hTp1
  set Tp2 := vec2.transformMat2d p2 m with hTp2
  set L := Line.fromPoints Tp1 Tp2 with hLset
  have hLtrans : Line.transform l m = L := rfl
  set q1 := vec2.scale (vec2.dir L.theta) L.offset with hq1
  set q2 := vec2.add q1 (vec2.dir (L.theta - 90)) with hq2
  have hgoal : Line.transform L (mat2d.invert m) =
      Line.fromPoints (vec2.transformMat2d q1 (mat2d.invert m))
        (vec2.transformMat2d q2 (mat2d.invert m)) := rfl
  rw [hLtrans, hgoal]
  have hsub21 : vec2.sub p2 p1 = d := by
    rw [hp2]
    unfold vec2.sub vec2.add
    dsimp only
    refine Prod.ext_iff.mpr ⟨by ring, by ring⟩
  have hp12 : p1 ≠ p2 := by
    rw [hp2, hd]
    exact vec2.add_dir_ne p1 _
  have hT12 : Tp1 ≠ Tp2 := by
    intro hc
    rw [hTp1, hTp2] at hc
    exact hp12 (mat2d.apply_inj m hdet hc)
  have hq12 : q1 ≠ q2 := by
    rw [hq2]
    exact vec2.add_dir_ne q1 _
  have hq1on : vec2.dot q1 (vec2.dir L.theta) = L.offset := by
    rw [hq1]
    exact Line.foot_on L
  have hq2on : vec2.dot q2 (vec2.dir L.theta) = L.offset := by
    rw [hq2, hq1]
    exact Line.foot_tangent_on L
  rw [hLset] at hq1on hq2on
  obtain ⟨t1, ht1⟩ := Line.mem_fromPoints hT12 hq1on
  obtain ⟨t2, ht2⟩ := Line.mem_fromPoints hT12 hq2on
  have hinv1 : vec2.transformMat2d q1 (mat2d.invert m) =
      vec2.add p1 (vec2.scale (vec2.sub p2 p1) t1) := by
    rw [ht1, hTp1, hTp2, vec2.transformMat2d_affine,
      mat2d.invert_apply m hdet, mat2d.invert_apply m hdet]
  have hinv2 : vec2.transformMat2d q2 (mat2d.invert m) =
      vec2.add p1 (vec2.scale (vec2.sub p2 p1) t2) := by
    rw [ht2, hTp1, hTp2, vec2.transformMat2d_affine,
      mat2d.invert_apply m hdet, mat2d.invert_apply m hdet]
  have ha : vec2.dot (vec2.transformMat2d q1 (mat2d.invert m)) n = l.offset := by
    rw [hinv1, hsub21, hp1, hd, hn]
    exact Line.foot_tangent_scale_on l t1
  have hb : vec2.dot (vec2.transformMat2d q2 (mat2d.invert m)) n = l.offset := by
    rw [hinv2, hsub21, hp1, hd, hn]
    exact Line.foot_tangent_scale_on l t2
  have hdne : d ≠ (0, 0) := by
    rw [hd]
    exact vec2.dir_ne _
  have hne' : vec2.transformMat2d q1 (mat2d.invert m) ≠
      vec2.transformMat2d q2 (mat2d.invert m) := by
    intro hc
    rw [hinv1, hinv2, hsub21] at hc
    have h1 := congrArg Prod.fst hc
    have h2 := congrArg Prod.snd hc
    dsimp only [vec2.add, vec2.scale] at h1 h2
    have ht12 : t1 = t2 := by
      by_contra hne''
      apply hdne
      refine Prod.ext_iff.mpr ⟨?_, ?_⟩
      · have h3 : d.1 * (t1 - t2) = 0 := by linarith
        rcases mul_eq_zero.mp h3 with h4 | h4
        · exact h4
        · exact absurd (by linarith : t1 = t2) hne''
      · have h3 : d.2 * (t1 - t2) = 0 := by linarith
        rcases mul_eq_zero.mp h3 with h4 | h4
        · exact h4
        · exact absurd (by linarith : t1 = t2) hne''
    rw [ht12] at ht1
    exact hq12 (ht1.trans ht2.symm)
  exact Line.fromPoints_same_of_mem hθ0 hθ1 hne' ha hb

/-- Witness for C6 at the line `⟨0, 0⟩` and the identity matrix. -/
theorem C6_transform_roundtrip_witness :
    Line.same (Line.transform (Line.transform ⟨0, 0⟩ ⟨1, 0, 0, 1, 0, 0⟩)
      (mat2d.invert ⟨1, 0, 0, 1, 0, 0⟩)) ⟨0, 0⟩ :=
  C6_transform_roundtrip ⟨0, 0⟩ ⟨1, 0, 0, 1, 0, 0⟩ le_rfl (by norm_num)
    (by norm_num [mat2d.det])

end
